import Mathlib

/-!
# Gauche `load.c` : a shallow embedding of the program loader

The development embeds the functions of `src/load.c` (revision 1.14):

* `Scm_FindFile`      : the path resolver with its in/out cursor,
* `Scm_GetLoadPath`, `Scm_AddLoadPath` : the path registry,
* `load_cc`, `Scm_VMLoadFromPort`, `Scm_VMTryLoad`, `Scm_VMLoad` : the loader driver,
* `Scm_DynLink`       : the dynamic-link entry.

Scheme objects are an inductive type, C strings and Scheme strings are `String`,
`Scm_Error` (a non-local exit) is the `error` side of `Except`, and the mutable
interpreter state is passed explicitly.  The collaborators that live outside
`load.c` (the file system, the reader, the evaluator, the pathname normalizer,
`dlopen`) are parameters of the embedding.
-/

set_option autoImplicit false

namespace Gauche

/-! ## Scheme objects -/

/-- The part of the `ScmObj` universe that `load.c` can observe.  `zeroWord` is the
machine word `0` seen as an `ScmObj`: it is what the C constant `FALSE` denotes when it
is returned from a function of type `ScmObj`; the Scheme false object `SCM_FALSE` is a
tagged immediate and a different word. -/
inductive ScmObj where
  | nil
  | false_
  | true_
  | eof
  | unbound
  | zeroWord
  | int (n : Int)
  | sym (name : String)
  | str (s : String)
  | pair (car : ScmObj) (cdr : ScmObj)
  | port (id : Nat)
  deriving DecidableEq, Repr

/-- The conditions `Scm_Error` is called with in `load.c`, one constructor per call
site message, carrying the values the message is formatted from.  `cdrOfNonPair` is
not an `Scm_Error`: it marks the point where the C code applies `SCM_CDR` to an object
that is not a pair, after which the C program has no defined behaviour.  `evalError` is
the error of the evaluator, raised while the given expression was being evaluated. -/
inductive ScmError where
  | badFilename
  | badLoadPathElement (paths : ScmObj)
  | badPort (port : ScmObj)
  | portClosed (port : ScmObj)
  | cannotOpen (cpath : String)
  | notFoundInPath (cpath : String) (load_paths : ScmObj)
  | cdrOfNonPair (obj : ScmObj)
  | evalError (expr : ScmObj)
  deriving DecidableEq, Repr

deriving instance DecidableEq for Except

/-- The predicate `SCM_PAIRP`. -/
def SCM_PAIRP : ScmObj → Bool
  | .pair _ _ => true
  | _ => false

/-- The predicate `SCM_NULLP`. -/
def SCM_NULLP : ScmObj → Bool
  | .nil => true
  | _ => false

/-- The predicate `SCM_STRINGP`. -/
def SCM_STRINGP : ScmObj → Bool
  | .str _ => true
  | _ => false

/-- The predicate `SCM_FALSEP`: identity with `SCM_FALSE`. -/
def SCM_FALSEP : ScmObj → Bool
  | .false_ => true
  | _ => false

/-- The predicate `SCM_EOFP`. -/
def SCM_EOFP : ScmObj → Bool
  | .eof => true
  | _ => false

/-- The constructor `Scm_Cons`. -/
def Scm_Cons (a d : ScmObj) : ScmObj := .pair a d

/-- The macro `SCM_LIST1`. -/
def SCM_LIST1 (a : ScmObj) : ScmObj := .pair a .nil

/-- The call `Scm_MakeString(cpath, -1, -1)`: the Scheme string with the bytes of a C string. -/
def Scm_MakeString (cpath : String) : ScmObj := .str cpath

/-- The proper Scheme list with the given elements. -/
def ofList : List ScmObj → ScmObj
  | [] => .nil
  | x :: xs => .pair x (ofList xs)

/-- The proper Scheme list of strings with the given contents. -/
def strList (ds : List String) : ScmObj := ofList (ds.map ScmObj.str)

/-- The elements a `SCM_FOR_EACH` traversal visits: the cars of the chain of pairs,
whatever object ends the chain. -/
def elems : ScmObj → List ScmObj
  | .pair a d => a :: elems d
  | _ => []

/-- The object left after `n` steps of `SCM_CDR` along the chain of pairs. -/
def tailAfter : Nat → ScmObj → ScmObj
  | 0, o => o
  | n + 1, .pair _ d => tailAfter n d
  | _ + 1, o => o

/-- The byte `*(ptr + i)` of the NUL-terminated buffer of a string. -/
def byteAt (s : String) (i : Nat) : Char := s.data.getD i (Char.ofNat 0)

/-! ## The path resolver -/

/-- The `SCM_FOR_EACH (lpath, *paths)` loop of `Scm_FindFile`.  `orig` is `*paths`, which
the error message reports.  The first component of the result is `lpath` when the loop is
left (the pair at which `break` was taken, or the object that ended the chain of pairs),
the second is the local `fpath`. -/
def findLoop (access : String → Bool) (path : String) (orig : ScmObj) :
    ScmObj → ScmObj → Except ScmError (ScmObj × ScmObj)
  | .pair a d, _ =>
    match a with
    | .str s =>
      if access (s ++ "/" ++ path) then .ok (.pair a d, .str (s ++ "/" ++ path))
      else findLoop access path orig d (.str (s ++ "/" ++ path))
    | _ => .error (.badLoadPathElement orig)
  | lpath, fpath => .ok (lpath, fpath)

/-- The function `Scm_FindFile (filename, &paths)`.  `access p` is the outcome of
`access (Scm_GetStringConst (p), F_OK) == 0` and `normalize` is
`Scm_NormalizePathname (_, SCM_PATH_EXPAND)`.  The value is the returned
object paired with the new contents of `*paths`; when an error is raised `*paths` has not
been written.  The local `fpath` has no initial value in C: it enters the loop as
`unbound`.  Leaving the loop at an object that is neither a pair nor the empty list makes
the C code take `SCM_CDR` of it. -/
def Scm_FindFile (access : String → Bool) (normalize : String → String)
    (filename : String) (paths : ScmObj) : Except ScmError (ScmObj × ScmObj) :=
  if filename.length = 0 then .error .badFilename
  else
    let pu : String × Bool :=
      if byteAt filename 0 = '~' then (normalize filename, false)
      else if byteAt filename 0 = '/' ∨ (byteAt filename 0 = '.' ∧ byteAt filename 1 = '/') then
        (filename, false)
      else (filename, true)
    let path := pu.1
    let use_load_paths := pu.2
    if use_load_paths then
      match findLoop access path paths paths .unbound with
      | .error e => .error e
      | .ok (lpath, fpath) =>
        if !SCM_NULLP lpath then
          match lpath with
          | .pair _ d => .ok (fpath, d)
          | o => .error (.cdrOfNonPair o)
        else .ok (.false_, .nil)
    else
      if access path then .ok (.str filename, .nil) else .ok (.false_, .nil)

/-! ## Interpreter state -/

/-- The values of the four Scheme variables `load.c` names.  `load_path` and
`load_history` are `load_path_rec->value` and `load_history_rec->value`; for
`*load-path-next*` and `*load-filename*` the file only declares the static pointers, so
the fields hold whatever value the language-level variable has. -/
structure Globals where
  load_path : ScmObj
  load_path_next : ScmObj
  load_history : ScmObj
  load_filename : ScmObj
  deriving DecidableEq, Repr

/-- A port of the I/O layer as the loader sees it: the path it was opened on, whether it
is an input port, whether it is closed, and the data the reader has still to deliver. -/
structure ScmPort where
  name : String
  input : Bool
  closed : Bool
  data : List ScmObj
  deriving DecidableEq, Repr

/-- The C continuations `load.c` registers with `Scm_VMPushCC`. -/
inductive CCont where
  | load_cc
  deriving DecidableEq, Repr

/-- A continuation frame: the C function and its `data` array. -/
structure ContFrame where
  func : CCont
  data : List ScmObj
  deriving DecidableEq, Repr

/-- The calls the loader makes to its collaborators, in the order they happen.  The log
is ghost state: it records, it never influences the computation. -/
inductive Event where
  | opened (cpath : String) (result : ScmObj)
  | read (port : ScmObj) (datum : ScmObj)
  | pushcc (frame : ContFrame)
  | eval (expr : ScmObj)
  | evaluated (expr : ScmObj) (seen : Globals) (value : ScmObj) (after : Globals)
  | aborted (expr : ScmObj) (seen : Globals) (after : Globals)
  | closed (port : ScmObj)
  deriving DecidableEq, Repr

/-- The interpreter state the loader reads and writes. -/
structure VM where
  globals : Globals
  ports : Nat → Option ScmPort
  nextPort : Nat
  cont : List ContFrame
  pending : Option ScmObj
  trace : List Event

/-- A file system for `Scm_OpenFilePort (_, "r")`: the data of each file that can be
opened for reading. -/
abbrev Files := String → Option (List ScmObj)

/-- What the evaluation of one expression comes to: it delivers a value to the
continuation registered for it, or it aborts with an error and delivers nothing.  Either
way it may have assigned Scheme variables. -/
inductive Outcome where
  | value (v : ScmObj) (g : Globals)
  | abort (g : Globals)
  deriving DecidableEq, Repr

/-- An evaluator: what evaluating an expression comes to, given the Scheme variables at
the time.  The ports belong to the loader, so an evaluator has no access to them. -/
abbrev Evaluator := ScmObj → Globals → Outcome

/-- The predicate `SCM_IPORTP`. -/
def SCM_IPORTP (port : ScmObj) (st : VM) : Bool :=
  match port with
  | .port id =>
    match st.ports id with
    | some q => q.input
    | none => false
  | _ => false

/-- The predicate `SCM_PORT_CLOSED_P`. -/
def SCM_PORT_CLOSED_P (port : ScmObj) (st : VM) : Bool :=
  match port with
  | .port id =>
    match st.ports id with
    | some q => q.closed
    | none => true
  | _ => true

/-- Modelled from the spec: `Scm_OpenFilePort (cpath, "r")` of the port layer, which is
not part of `load.c`.  It yields a fresh open input port on the file, or `SCM_FALSE` when
the file cannot be opened for reading. -/
def Scm_OpenFilePort (fs : Files) (cpath : String) (st : VM) : ScmObj × VM :=
  match fs cpath with
  | none => (.false_, { st with trace := st.trace ++ [.opened cpath .false_] })
  | some d =>
    (.port st.nextPort,
      { st with
        ports := fun i => if i = st.nextPort then some ⟨cpath, true, false, d⟩ else st.ports i
        nextPort := st.nextPort + 1
        trace := st.trace ++ [.opened cpath (.port st.nextPort)] })

/-- Modelled from the spec: `Scm_Read` of the reader, which is not part of `load.c`.
It takes the next datum off the port, or yields the EOF object at end of input. -/
def Scm_Read (port : ScmObj) (st : VM) : ScmObj × VM :=
  match port with
  | .port id =>
    match st.ports id with
    | some q =>
      match q.data with
      | e :: es =>
        (e, { st with
              ports := fun i => if i = id then some { q with data := es } else st.ports i
              trace := st.trace ++ [.read port e] })
      | [] => (.eof, { st with trace := st.trace ++ [.read port .eof] })
    | none => (.eof, { st with trace := st.trace ++ [.read port .eof] })
  | _ => (.eof, { st with trace := st.trace ++ [.read port .eof] })

/-- Modelled from the spec: `Scm_ClosePort` of the port layer, which is not part of
`load.c`. -/
def Scm_ClosePort (port : ScmObj) (st : VM) : VM :=
  match port with
  | .port id =>
    match st.ports id with
    | some q =>
      { st with
        ports := fun i => if i = id then some { q with closed := true } else st.ports i
        trace := st.trace ++ [.closed port] }
    | none => { st with trace := st.trace ++ [.closed port] }
  | _ => { st with trace := st.trace ++ [.closed port] }

/-- Modelled from the spec: `Scm_VMPushCC (func, data, datasize)` of the VM, which is not
part of `load.c`.  It registers a C continuation for the result of the coming
evaluation. -/
def Scm_VMPushCC (func : CCont) (data : List ScmObj) (st : VM) : VM :=
  { st with cont := ⟨func, data⟩ :: st.cont, trace := st.trace ++ [.pushcc ⟨func, data⟩] }

/-- Modelled from the spec: `Scm_VMEval (expr, SCM_UNBOUND)` of the VM, which is not part
of `load.c`.  It requests the evaluation of `expr`; the evaluation itself happens after
the calling C function has returned to the VM. -/
def Scm_VMEval (expr : ScmObj) (st : VM) : VM :=
  { st with pending := some expr, trace := st.trace ++ [.eval expr] }

/-! ## The loader driver -/

/-- The function `load_cc (result, data)`: the C continuation of the loading. -/
def load_cc (result : ScmObj) (data : List ScmObj) (st : VM) : ScmObj × VM :=
  let port := data.headD .unbound
  let rd := Scm_Read port st
  let expr := rd.1
  if !SCM_EOFP expr then
    (result, Scm_VMEval expr (Scm_VMPushCC .load_cc [port] rd.2))
  else
    (result, Scm_ClosePort port rd.2)

/-- The function `Scm_VMLoadFromPort (port)`. -/
def Scm_VMLoadFromPort (port : ScmObj) (st : VM) : Except ScmError ScmObj × VM :=
  if !SCM_IPORTP port st then (.error (.badPort port), st)
  else if SCM_PORT_CLOSED_P port st then (.error (.portClosed port), st)
  else
    let r := load_cc .nil [port] st
    (.ok r.1, r.2)

/-- The function `Scm_VMTryLoad (cpath)`.  On a failed open the C code returns the constant `FALSE`. -/
def Scm_VMTryLoad (fs : Files) (cpath : String) (st : VM) : Except ScmError ScmObj × VM :=
  let op := Scm_OpenFilePort fs cpath st
  if SCM_FALSEP op.1 then (.ok .zeroWord, op.2)
  else Scm_VMLoadFromPort op.1 op.2

/-- The function `Scm_GetLoadPath ()`. -/
def Scm_GetLoadPath (st : VM) : ScmObj := st.globals.load_path

/-- The `SCM_FOR_EACH (lpath, load_paths)` loop of `Scm_VMLoad`; the result is the local
`p` when the loop is left. -/
def loadLoop (fs : Files) (spath : String) (load_paths : ScmObj) :
    ScmObj → ScmObj → VM → Except ScmError ScmObj × VM
  | .pair a d, _, st =>
    match a with
    | .str s =>
      let op := Scm_OpenFilePort fs (s ++ "/" ++ spath) st
      if !SCM_FALSEP op.1 then (.ok op.1, op.2)
      else loadLoop fs spath load_paths d op.1 op.2
    | _ => (.error (.badLoadPathElement load_paths), st)
  | _, p, st => (.ok p, st)

/-- The function `Scm_VMLoad (cpath)`. -/
def Scm_VMLoad (fs : Files) (cpath : String) (st : VM) : Except ScmError ScmObj × VM :=
  let op := Scm_OpenFilePort fs cpath st
  if SCM_FALSEP op.1 then
    if byteAt cpath 0 = '/' then (.error (.cannotOpen cpath), op.2)
    else
      let spath := cpath
      let load_paths := Scm_GetLoadPath op.2
      match loadLoop fs spath load_paths load_paths op.1 op.2 with
      | (.error e, st2) => (.error e, st2)
      | (.ok p, st2) =>
        if SCM_FALSEP p then (.error (.notFoundInPath cpath load_paths), st2)
        else Scm_VMLoadFromPort p st2
  else Scm_VMLoadFromPort op.1 op.2

/-! ## The path registry -/

/-- Modelled from the spec: `Scm_Append2` of the list primitives, which is not part of
`load.c`: the elements of the first list followed by the second object. -/
def Scm_Append2 : ScmObj → ScmObj → ScmObj
  | .pair a d, obj => .pair a (Scm_Append2 d obj)
  | _, obj => obj

/-- The function `Scm_AddLoadPath (cpath, afterp)`; `afterp` is a C `int` used as a truth value. -/
def Scm_AddLoadPath (cpath : String) (afterp : Int) (st : VM) : ScmObj × VM :=
  let spath := Scm_MakeString cpath
  let st1 : VM :=
    if !SCM_PAIRP st.globals.load_path then
      { st with globals := { st.globals with load_path := SCM_LIST1 spath } }
    else if afterp ≠ 0 then
      { st with globals :=
          { st.globals with load_path := Scm_Append2 st.globals.load_path (SCM_LIST1 spath) } }
    else
      { st with globals := { st.globals with load_path := Scm_Cons spath st.globals.load_path } }
  (st1.globals.load_path, st1)

/-! ## Dynamic link -/

/-- The function `Scm_DynLink (cpath)`.  `dlopen p` is the handle `dlopen (p, RTLD_LAZY)` yields, if
any; `dlsym h` is the effect of the function `dlsym (h, "Initialize")` yields, if any. -/
def Scm_DynLink (dlopen : String → Option Nat) (dlsym : Nat → Option (VM → VM))
    (cpath : String) (st : VM) : ScmObj × VM :=
  match dlopen cpath with
  | none => (.false_, st)
  | some handle =>
    match dlsym handle with
    | none => (.false_, st)
    | some init_fn => (.true_, init_fn st)

/-! ## Initialization -/

/-- The interpreter state before `Scm__InitLoad`: no variable of the loader is bound, no
port exists, the VM is idle. -/
def VM.boot : VM :=
  { globals := ⟨.unbound, .unbound, .unbound, .unbound⟩
    ports := fun _ => none
    nextPort := 0
    cont := []
    pending := none
    trace := [] }

/-- The function `Scm__InitLoad ()`; `instdir` is the constant `SCM_INSTALL_DIR`. -/
def Scm__InitLoad (instdir : String) (st : VM) : VM :=
  { st with globals :=
      { st.globals with load_path := SCM_LIST1 (.str instdir), load_history := .nil } }

/-! ## The VM side of the continuation contract -/

/-- Invoke a registered C continuation with a result. -/
def ContFrame.invoke (f : ContFrame) (result : ScmObj) (st : VM) : ScmObj × VM :=
  match f.func with
  | .load_cc => load_cc result f.data st

/-- Modelled from the spec: the VM loop (`gauche/vm.c`, not part of `load.c`) between the
return of a C function that called `Scm_VMEval` and the end of the load.  While an
expression is pending the VM evaluates it.  When the evaluation delivers a value the VM
pops the continuation frame registered for it and invokes that continuation with the
value; the value a continuation returns after it requested another evaluation is
dropped.  When the evaluation aborts, the registered continuation is not invoked and the
run ends with the error.  The run ends normally when a continuation returns without
requesting an evaluation: its return value is the result left on the VM.  `fuel` bounds
the number of evaluations. -/
def vmRun (ev : Evaluator) : Nat → ScmObj → VM → Option (Except ScmError ScmObj × VM)
  | 0, r, st =>
    match st.pending with
    | none => some (.ok r, st)
    | some _ => none
  | fuel + 1, r, st =>
    match st.pending with
    | none => some (.ok r, st)
    | some expr =>
      match ev expr st.globals with
      | .abort g =>
        some (.error (.evalError expr),
          { st with
            pending := none
            globals := g
            trace := st.trace ++ [.aborted expr st.globals g] })
      | .value v g =>
        let st1 : VM :=
          { st with
            pending := none
            globals := g
            trace := st.trace ++ [.evaluated expr st.globals v g] }
        match st1.cont with
        | [] => some (.ok v, st1)
        | f :: k =>
          let r1 := f.invoke v { st1 with cont := k }
          vmRun ev fuel r1.1 r1.2

/-- A complete load: `Scm_VMLoad` followed by the VM loop. -/
def runLoad (ev : Evaluator) (fs : Files) (fuel : Nat) (cpath : String) (st : VM) :
    Option (Except ScmError ScmObj × VM) :=
  match Scm_VMLoad fs cpath st with
  | (.error e, st1) => some (.error e, st1)
  | (.ok r, st1) => vmRun ev fuel r st1

/-- A complete load from a port: `Scm_VMLoadFromPort` followed by the VM loop. -/
def runLoadFromPort (ev : Evaluator) (fuel : Nat) (port : ScmObj) (st : VM) :
    Option (Except ScmError ScmObj × VM) :=
  match Scm_VMLoadFromPort port st with
  | (.error e, st1) => some (.error e, st1)
  | (.ok r, st1) => vmRun ev fuel r st1

/-! ## Words of the specification -/

/-- The string `s` begins with the string `p`. -/
def beginsWith (p s : String) : Prop := p.data <+: s.data

instance (p s : String) : Decidable (beginsWith p s) :=
  inferInstanceAs (Decidable (p.data <+: s.data))

/-- The Scheme list that holds the elements `xs` followed by the list `l`. -/
def followedBy (xs : List ScmObj) (l : ScmObj) : ScmObj := xs.foldr ScmObj.pair l

/-- The calls `Scm_AddLoadPath (d, 0)` for the directories `ds`, in order. -/
def addLoadPaths (ds : List String) (st : VM) : VM :=
  ds.foldl (fun s d => (Scm_AddLoadPath d 0 s).2) st

/-- The log of a load of the data `es` from the port `p`, begun with the Scheme
variables at `g`: each datum is read, the continuation is registered, the datum is
submitted and evaluated, and only then the next read happens.  The read of the EOF object
is followed by the close; an evaluation that aborts ends the log. -/
def loadTrace (ev : Evaluator) (p : ScmObj) : List ScmObj → Globals → List Event
  | [], _ => [.read p .eof, .closed p]
  | e :: es, g =>
    match ev e g with
    | .value v g1 =>
      [.read p e, .pushcc ⟨.load_cc, [p]⟩, .eval e, .evaluated e g v g1]
        ++ loadTrace ev p es g1
    | .abort g1 => [.read p e, .pushcc ⟨.load_cc, [p]⟩, .eval e, .aborted e g g1]

/-- The result and the Scheme variables after evaluating the data `es` in order, starting
from the value `r` and the variables `g`: the last value, or the error of the first
evaluation that aborts. -/
def evalAll (ev : Evaluator) : List ScmObj → ScmObj → Globals → Except ScmError ScmObj × Globals
  | [], r, g => (.ok r, g)
  | e :: es, _, g =>
    match ev e g with
    | .value v g1 => evalAll ev es v g1
    | .abort g1 => (.error (.evalError e), g1)

/-- Every evaluation of the data `es` in order, from the variables `g`, delivers a
value. -/
def allDeliver (ev : Evaluator) : List ScmObj → Globals → Bool
  | [], _ => true
  | e :: es, g =>
    match ev e g with
    | .value _ g1 => allDeliver ev es g1
    | .abort _ => false

/-- The data left unread when the evaluation of `es` in order ends. -/
def unreadAfter (ev : Evaluator) : List ScmObj → Globals → List ScmObj
  | [], _ => []
  | e :: es, g =>
    match ev e g with
    | .value _ g1 => unreadAfter ev es g1
    | .abort _ => es

/-- No evaluation of the data `es` in order, from the variables `g`, changes
`*load-filename*` or `*load-history*`. -/
def quietOn (ev : Evaluator) : List ScmObj → Globals → Bool
  | [], _ => true
  | e :: es, g =>
    match ev e g with
    | .value _ g1 =>
      (g1.load_filename == g.load_filename && g1.load_history == g.load_history)
        && quietOn ev es g1
    | .abort g1 => g1.load_filename == g.load_filename && g1.load_history == g.load_history

/-- No evaluation a log shows changed `*load-filename*` or `*load-history*`. -/
def keepsVars : List Event → Bool
  | [] => true
  | .evaluated _ g _ g1 :: t =>
    (g1.load_filename == g.load_filename && g1.load_history == g.load_history)
      && keepsVars t
  | .aborted _ g g1 :: t =>
    (g1.load_filename == g.load_filename && g1.load_history == g.load_history)
      && keepsVars t
  | _ :: t => keepsVars t

/-- The expressions a log shows as submitted to the evaluator, in order. -/
def submitted : List Event → List ScmObj
  | [] => []
  | .eval e :: t => e :: submitted t
  | _ :: t => submitted t

/-- The ports a log shows as closed, in order. -/
def closings : List Event → List ScmObj
  | [] => []
  | .closed p :: t => p :: closings t
  | _ :: t => closings t

/-- The data a log shows as read, in order. -/
def readings : List Event → List ScmObj
  | [] => []
  | .read _ e :: t => e :: readings t
  | _ :: t => readings t

/-- The value of `*load-filename*` seen by each evaluation a log shows, in order. -/
def seenFilenames : List Event → List ScmObj
  | [] => []
  | .evaluated _ g _ _ :: t => g.load_filename :: seenFilenames t
  | .aborted _ g _ :: t => g.load_filename :: seenFilenames t
  | _ :: t => seenFilenames t

/-- The log entries of the failed attempts to open `d ++ "/" ++ f` for each `d`. -/
def failedOpens (f : String) (ds : List String) : List Event :=
  ds.map (fun d => Event.opened (d ++ "/" ++ f) .false_)

/-! ## Scenarios -/

/-- The expression `(define x 1)`. -/
def exprDefine : ScmObj := ofList [.sym "define", .sym "x", .int 1]

/-- The expression `(set! x 2)`. -/
def exprSet : ScmObj := ofList [.sym "set!", .sym "x", .int 2]

/-- Scenario S1: the file `/tmp/a.scm` holds `(define x 1) (set! x 2)`. -/
def filesS1 : Files := fun p => if p = "/tmp/a.scm" then some [exprDefine, exprSet] else none

/-- Scenario S4 with one more file: nothing under `/d1`, but `util.scm` can be opened by
its bare name in the working directory. -/
def filesOnlyCwd : Files := fun p => if p = "util.scm" then some [.int 1] else none

/-- An evaluator that assigns none of the loader's variables: `define` yields the name,
`set!` yields the new value, the symbol `boom` raises an error, anything else yields
itself. -/
def quietEval : Evaluator := fun e g =>
  match e with
  | .pair (.sym "define") (.pair n _) => .value n g
  | .pair (.sym "set!") (.pair _ (.pair v _)) => .value v g
  | .sym "boom" => .abort g
  | _ => .value e g

/-- An evaluator like `quietEval` on every expression but the symbol `history`, whose
evaluation assigns `*load-history*`. -/
def almostQuietEval : Evaluator := fun e g =>
  match e with
  | .sym "history" => .value e { g with load_history := .pair e g.load_history }
  | _ => quietEval e g

/-- A file system with one file `/tmp/b.scm` that holds `1 boom 3`. -/
def filesBoom : Files := fun p =>
  if p = "/tmp/b.scm" then some [.int 1, .sym "boom", .int 3] else none

/-- The interpreter after `Scm__InitLoad` with the given directories as `*load-path*`. -/
def vmWithPath (ds : List String) : VM :=
  let st := Scm__InitLoad "/usr/share/lib" VM.boot
  { st with globals := { st.globals with load_path := strList ds } }

/-- The relation between the state before and after a step of the loader that leaves
the Scheme variables alone and logs no evaluation. -/
def quietStep (st st1 : VM) : Prop :=
  st1.globals = st.globals ∧ ∃ log, st1.trace = st.trace ++ log ∧ seenFilenames log = []

/-! ## Resolver: auxiliary lemmas -/

theorem byteAt_zero_cons (c : Char) (cs : List Char) : byteAt ⟨c :: cs⟩ 0 = c := rfl

theorem byteAt_one_cons (c d : Char) (cs : List Char) : byteAt ⟨c :: d :: cs⟩ 1 = d := rfl

theorem byteAt_one_single (c : Char) : byteAt ⟨[c]⟩ 1 = Char.ofNat 0 := rfl

theorem length_ne_zero_of_ne_empty (f : String) (h : f ≠ "") : f.length ≠ 0 := by
  rcases f with ⟨cs⟩
  cases cs with
  | nil => exact absurd rfl h
  | cons c cs => simp [String.length]

theorem beginsWith_tilde_iff (f : String) :
    beginsWith "~" f ↔ (f.length ≠ 0 ∧ byteAt f 0 = '~') := by
  rcases f with ⟨cs⟩
  cases cs with
  | nil => simp [beginsWith, String.length]
  | cons c cs =>
    simp only [beginsWith, byteAt_zero_cons, String.length]
    constructor
    · rintro ⟨t, ht⟩
      have : '~' :: t = c :: cs := ht
      injection this with h1 _
      exact ⟨by simp, h1.symm⟩
    · rintro ⟨_, rfl⟩
      exact ⟨cs, rfl⟩

theorem beginsWith_slash_iff (f : String) :
    beginsWith "/" f ↔ (f.length ≠ 0 ∧ byteAt f 0 = '/') := by
  rcases f with ⟨cs⟩
  cases cs with
  | nil => simp [beginsWith, String.length]
  | cons c cs =>
    simp only [beginsWith, byteAt_zero_cons, String.length]
    constructor
    · rintro ⟨t, ht⟩
      have : '/' :: t = c :: cs := ht
      injection this with h1 _
      exact ⟨by simp, h1.symm⟩
    · rintro ⟨_, rfl⟩
      exact ⟨cs, rfl⟩

theorem beginsWith_dotslash_iff (f : String) :
    beginsWith "./" f ↔ (byteAt f 0 = '.' ∧ byteAt f 1 = '/') := by
  rcases f with ⟨cs⟩
  cases cs with
  | nil =>
    simp only [beginsWith]
    constructor
    · rintro ⟨t, ht⟩
      have : '.' :: '/' :: t = [] := ht
      cases this
    · rintro ⟨h, _⟩
      exact absurd h (by decide)
  | cons c cs =>
    cases cs with
    | nil =>
      simp only [beginsWith, byteAt_zero_cons, byteAt_one_single]
      constructor
      · rintro ⟨t, ht⟩
        have : '.' :: '/' :: t = [c] := ht
        cases this
      · rintro ⟨_, h⟩
        exact absurd h (by decide)
    | cons d cs =>
      simp only [beginsWith, byteAt_zero_cons, byteAt_one_cons]
      constructor
      · rintro ⟨t, ht⟩
        have : '.' :: '/' :: t = c :: d :: cs := ht
        injection this with h1 h2
        injection h2 with h2 _
        exact ⟨h1.symm, h2.symm⟩
      · rintro ⟨rfl, rfl⟩
        exact ⟨cs, rfl⟩

/-- In search mode `Scm_FindFile` is the loop followed by the test on `lpath`. -/
theorem findFile_search_eq (access : String → Bool) (normalize : String → String)
    (f : String) (P : ScmObj)
    (hne : f ≠ "") (h1 : ¬ beginsWith "~" f) (h2 : ¬ beginsWith "/" f)
    (h3 : ¬ beginsWith "./" f) :
    Scm_FindFile access normalize f P =
      match findLoop access f P P .unbound with
      | .error e => .error e
      | .ok (lpath, fpath) =>
        if !SCM_NULLP lpath then
          match lpath with
          | .pair _ d => .ok (fpath, d)
          | o => .error (.cdrOfNonPair o)
        else .ok (.false_, .nil) := by
  have hlen := length_ne_zero_of_ne_empty f hne
  have a1 : ¬ byteAt f 0 = '~' := fun h => h1 ((beginsWith_tilde_iff f).2 ⟨hlen, h⟩)
  have a2 : ¬ byteAt f 0 = '/' := fun h => h2 ((beginsWith_slash_iff f).2 ⟨hlen, h⟩)
  have a3 : ¬ (byteAt f 0 = '.' ∧ byteAt f 1 = '/') :=
    fun h => h3 ((beginsWith_dotslash_iff f).2 h)
  have a4 : ¬ (byteAt f 0 = '/' ∨ (byteAt f 0 = '.' ∧ byteAt f 1 = '/')) := by
    rintro (h | h)
    · exact a2 h
    · exact a3 h
  unfold Scm_FindFile
  simp only [hlen, a1, a4, if_false, if_true]

/-- Outside search mode `Scm_FindFile` probes one path and never looks at the cursor. -/
theorem findFile_literal_eq (access : String → Bool) (normalize : String → String)
    (f : String) (P : ScmObj)
    (h : beginsWith "/" f ∨ beginsWith "./" f ∨ beginsWith "~" f) :
    Scm_FindFile access normalize f P =
      if access (if byteAt f 0 = '~' then normalize f else f) then .ok (.str f, .nil)
      else .ok (.false_, .nil) := by
  have hlen : f.length ≠ 0 := by
    rcases h with h | h | h
    · exact ((beginsWith_slash_iff f).1 h).1
    · have h0 := ((beginsWith_dotslash_iff f).1 h).1
      rcases f with ⟨cs⟩
      cases cs with
      | nil => exact absurd h0 (by decide)
      | cons c cs => simp [String.length]
    · exact ((beginsWith_tilde_iff f).1 h).1
  unfold Scm_FindFile
  by_cases ht : byteAt f 0 = '~'
  · simp [hlen, ht]
  · have hs : byteAt f 0 = '/' ∨ (byteAt f 0 = '.' ∧ byteAt f 1 = '/') := by
      rcases h with h | h | h
      · exact Or.inl ((beginsWith_slash_iff f).1 h).2
      · exact Or.inr ((beginsWith_dotslash_iff f).1 h)
      · exact absurd ((beginsWith_tilde_iff f).1 h).2 ht
    simp [hlen, ht, hs]

theorem elems_pair (a d : ScmObj) : elems (.pair a d) = a :: elems d := rfl

/-- The loop stops at the first element whose candidate exists, when every element
before it is a string. -/
theorem findLoop_hit (access : String → Bool) (f : String) (orig : ScmObj) :
    ∀ (i : Nat) (P fp : ScmObj) (s : String),
      (elems P)[i]? = some (.str s) → access (s ++ "/" ++ f) = true →
      (∀ k, k < i → ∃ t, (elems P)[k]? = some (.str t) ∧ access (t ++ "/" ++ f) = false) →
      findLoop access f orig P fp
        = .ok (.pair (.str s) (tailAfter (i + 1) P), .str (s ++ "/" ++ f)) := by
  intro i
  induction i with
  | zero =>
    intro P fp s hs hacc _
    cases P with
    | pair a d =>
      simp only [elems_pair, List.getElem?_cons_zero, Option.some.injEq] at hs
      subst hs
      simp [findLoop, hacc, tailAfter]
    | _ => simp [elems] at hs
  | succ n ih =>
    intro P fp s hs hacc hbefore
    cases P with
    | pair a d =>
      obtain ⟨t, ht, hacct⟩ := hbefore 0 (Nat.succ_pos n)
      simp only [elems_pair, List.getElem?_cons_zero, Option.some.injEq] at ht
      subst ht
      simp only [elems_pair, List.getElem?_cons_succ] at hs
      have hb : ∀ k, k < n →
          ∃ u, (elems d)[k]? = some (.str u) ∧ access (u ++ "/" ++ f) = false := by
        intro k hk
        obtain ⟨u, hu, hau⟩ := hbefore (k + 1) (Nat.succ_lt_succ hk)
        simp only [elems_pair, List.getElem?_cons_succ] at hu
        exact ⟨u, hu, hau⟩
      have := ih d (.str (t ++ "/" ++ f)) s hs hacc hb
      simp [findLoop, hacct, this, tailAfter]
    | _ => simp [elems] at hs

/-- The loop raises the error at the first element that is not a string, when no
candidate before it exists. -/
theorem findLoop_bad (access : String → Bool) (f : String) (orig : ScmObj) :
    ∀ (j : Nat) (P fp x : ScmObj),
      (elems P)[j]? = some x → SCM_STRINGP x = false →
      (∀ i s, i < j → (elems P)[i]? = some (.str s) → access (s ++ "/" ++ f) = false) →
      findLoop access f orig P fp = .error (.badLoadPathElement orig) := by
  intro j
  induction j with
  | zero =>
    intro P fp x hx hnot _
    cases P with
    | pair a d =>
      simp only [elems_pair, List.getElem?_cons_zero, Option.some.injEq] at hx
      subst hx
      cases a <;> simp_all [findLoop, SCM_STRINGP]
    | _ => simp [elems] at hx
  | succ n ih =>
    intro P fp x hx hnot hbefore
    cases P with
    | pair a d =>
      simp only [elems_pair, List.getElem?_cons_succ] at hx
      have hb : ∀ i s, i < n → (elems d)[i]? = some (.str s) →
          access (s ++ "/" ++ f) = false := by
        intro i s hi hs
        exact hbefore (i + 1) s (Nat.succ_lt_succ hi) (by simpa [elems_pair] using hs)
      cases a with
      | str t =>
        have hacct : access (t ++ "/" ++ f) = false :=
          hbefore 0 t (Nat.succ_pos n) (by simp [elems_pair])
        have := ih d (.str (t ++ "/" ++ f)) x hx hnot hb
        simp [findLoop, hacct, this]
      | _ => simp [findLoop]
    | _ => simp [elems] at hx

/-- On a proper list of strings none of whose candidates exists the loop runs to the
empty list. -/
theorem findLoop_miss (access : String → Bool) (f : String) (orig : ScmObj) :
    ∀ (ds : List String) (fp : ScmObj),
      (∀ d ∈ ds, access (d ++ "/" ++ f) = false) →
      ∃ fp1, findLoop access f orig (strList ds) fp = .ok (.nil, fp1) := by
  intro ds
  induction ds with
  | nil =>
    intro fp _
    exact ⟨fp, by simp [strList, ofList, findLoop]⟩
  | cons d ds ih =>
    intro fp h
    have hd : access (d ++ "/" ++ f) = false := h d (List.mem_cons_self _ _)
    obtain ⟨fp1, h1⟩ := ih (.str (d ++ "/" ++ f)) (fun e he => h e (List.mem_cons_of_mem _ he))
    refine ⟨fp1, ?_⟩
    simp only [strList] at h1
    simp [strList, ofList, findLoop, hd, h1]

theorem strList_nil : strList [] = .nil := rfl

theorem strList_cons (d : String) (ds : List String) :
    strList (d :: ds) = .pair (.str d) (strList ds) := rfl

theorem elems_strList (ds : List String) : elems (strList ds) = ds.map ScmObj.str := by
  induction ds with
  | nil => rfl
  | cons d ds ih =>
    simp only [strList] at ih
    simp [strList, ofList, elems, ih]

theorem tailAfter_strList (n : Nat) (ds : List String) :
    tailAfter n (strList ds) = strList (ds.drop n) := by
  induction n generalizing ds with
  | zero => rfl
  | succ n ih =>
    cases ds with
    | nil => rfl
    | cons d ds =>
      have := ih ds
      simp only [strList] at this
      simp [strList, ofList, tailAfter, this]

/-! ## Resolver: the claims -/

/-- C1: `Scm_FindFile` in search mode is first-match search.  For a non-empty filename
`f` that begins with neither `~`, `/` nor `./` and a cursor that is the proper list of the
strings `ds`: when `i` is the least index whose candidate `ds[i] ++ "/" ++ f` exists, the
result is exactly that string and the cursor becomes the elements after index `i`; when
no candidate exists the result is `SCM_FALSE` and the cursor becomes the empty list. -/
theorem findFile_first_match (access : String → Bool) (normalize : String → String)
    (f : String) (ds : List String)
    (hne : f ≠ "") (h1 : ¬ beginsWith "~" f) (h2 : ¬ beginsWith "/" f)
    (h3 : ¬ beginsWith "./" f) :
    (∀ (i : Nat) (d : String), ds[i]? = some d → access (d ++ "/" ++ f) = true →
        (∀ (k : Nat) (e : String), k < i → ds[k]? = some e →
          access (e ++ "/" ++ f) = false) →
        Scm_FindFile access normalize f (strList ds)
          = .ok (.str (d ++ "/" ++ f), strList (ds.drop (i + 1))))
    ∧ ((∀ (i : Nat) (d : String), ds[i]? = some d → access (d ++ "/" ++ f) = false) →
        Scm_FindFile access normalize f (strList ds) = .ok (.false_, .nil)) := by
  constructor
  · intro i d hd hacc hleast
    have hi : i < ds.length := by
      rcases Nat.lt_or_ge i ds.length with h | h
      · exact h
      · rw [List.getElem?_eq_none h] at hd
        cases hd
    have hel : (elems (strList ds))[i]? = some (.str d) := by
      rw [elems_strList, List.getElem?_map, hd]
      rfl
    have hb : ∀ k, k < i →
        ∃ t, (elems (strList ds))[k]? = some (.str t) ∧ access (t ++ "/" ++ f) = false := by
      intro k hk
      have hk2 : k < ds.length := Nat.lt_trans hk hi
      refine ⟨ds[k], ?_, hleast k ds[k] hk (List.getElem?_eq_getElem hk2)⟩
      rw [elems_strList, List.getElem?_map, List.getElem?_eq_getElem hk2]
      rfl
    rw [findFile_search_eq access normalize f _ hne h1 h2 h3,
      findLoop_hit access f _ i _ _ d hel hacc hb]
    simp [SCM_NULLP, tailAfter_strList]
  · intro hnone
    have hall : ∀ d ∈ ds, access (d ++ "/" ++ f) = false := by
      intro d hd
      obtain ⟨i, hi, hget⟩ := List.getElem_of_mem hd
      exact hnone i d (by rw [List.getElem?_eq_getElem hi, hget])
    obtain ⟨fp1, hfp⟩ := findLoop_miss access f (strList ds) ds .unbound hall
    rw [findFile_search_eq access normalize f _ hne h1 h2 h3, hfp]
    simp [SCM_NULLP]

/-- Witness of C1 on scenario S3: the search path is `/d1`, `/d2` and only
`/d2/util.scm` exists. -/
theorem findFile_first_match_witness :
    Scm_FindFile (fun p => p == "/d2/util.scm") id "util.scm" (strList ["/d1", "/d2"])
      = .ok (.str "/d2/util.scm", .nil) :=
  (findFile_first_match (fun p => p == "/d2/util.scm") id "util.scm" ["/d1", "/d2"]
      (by decide) (by decide) (by decide) (by decide)).1 1 "/d2" rfl (by decide)
    (by
      intro k e hk he
      have hk0 : k = 0 := by omega
      subst hk0
      simp only [List.getElem?_cons_zero, Option.some.injEq] at he
      subst he
      decide)

/-- C2 (divergence): for the filename `~/x.scm`, whose expansion `/home/u/x.scm` exists,
`Scm_FindFile` succeeds and returns the filename as it was given, not the expanded path it
probed; the returned string does not exist under the existence probe. -/
theorem findFile_tilde_returns_unexpanded :
    Scm_FindFile (fun p => p == "/home/u/x.scm")
        (fun s => if s = "~/x.scm" then "/home/u/x.scm" else s)
        "~/x.scm" (strList ["/d1"])
      = .ok (.str "~/x.scm", .nil)
    ∧ (fun p => p == "/home/u/x.scm") "~/x.scm" = false
    ∧ (fun p => p == "/home/u/x.scm")
        ((fun s => if s = "~/x.scm" then "/home/u/x.scm" else s) "~/x.scm") = true := by
  decide

/-- C3: for a filename beginning with `/`, `./` or `~`, `Scm_FindFile` consults no path
element.  Any two cursor values, lists or not, give the same outcome; the call returns
(no error of any kind is raised, in particular no `BadLoadPathElement`); and the cursor
is the empty list whether the file was found or not. -/
theorem findFile_literal_ignores_cursor (access : String → Bool)
    (normalize : String → String) (f : String)
    (h : beginsWith "/" f ∨ beginsWith "./" f ∨ beginsWith "~" f) (P P1 : ScmObj) :
    Scm_FindFile access normalize f P = Scm_FindFile access normalize f P1
    ∧ (Scm_FindFile access normalize f P = .ok (.str f, .nil)
        ∨ Scm_FindFile access normalize f P = .ok (.false_, .nil))
    ∧ (∀ Q, Scm_FindFile access normalize f P ≠ .error (.badLoadPathElement Q)) := by
  have e1 := findFile_literal_eq access normalize f P h
  have e2 := findFile_literal_eq access normalize f P1 h
  refine ⟨e1.trans e2.symm, ?_, ?_⟩
  · rw [e1]
    by_cases hacc : access (if byteAt f 0 = '~' then normalize f else f) = true
    · exact Or.inl (by simp [hacc])
    · exact Or.inr (by simp [hacc])
  · intro Q
    rw [e1]
    by_cases hacc : access (if byteAt f 0 = '~' then normalize f else f) = true <;>
      simp [hacc]

/-- Witness of C3: `/tmp/a.scm` against a cursor holding a non-string and against a
cursor that is not a list. -/
theorem findFile_literal_ignores_cursor_witness :
    Scm_FindFile (fun p => p == "/tmp/a.scm") id "/tmp/a.scm"
        (.pair (.int 42) (.pair (.str "/d2") .nil))
      = Scm_FindFile (fun p => p == "/tmp/a.scm") id "/tmp/a.scm" (.int 7) :=
  (findFile_literal_ignores_cursor (fun p => p == "/tmp/a.scm") id "/tmp/a.scm"
    (Or.inl (by decide)) (.pair (.int 42) (.pair (.str "/d2") .nil)) (.int 7)).1

/-- C4: eager validation on visit.  In search mode, when the cursor `P` holds a
non-string at index `j` and no candidate of an element before `j` exists,
`Scm_FindFile` raises `BadLoadPathElement` reporting the whole of `P`, whatever follows
index `j`.  Conversely, when the elements up to index `i` are strings and the candidate
of element `i` exists, no error is raised: the first existing candidate, at some index
`k ≤ i`, is returned and the cursor becomes what follows element `k`. -/
theorem findFile_eager_validation (access : String → Bool) (normalize : String → String)
    (f : String) (P : ScmObj)
    (hne : f ≠ "") (h1 : ¬ beginsWith "~" f) (h2 : ¬ beginsWith "/" f)
    (h3 : ¬ beginsWith "./" f) :
    (∀ (j : Nat) (x : ScmObj), (elems P)[j]? = some x → SCM_STRINGP x = false →
        (∀ (i : Nat) (s : String), i < j → (elems P)[i]? = some (.str s) →
          access (s ++ "/" ++ f) = false) →
        Scm_FindFile access normalize f P = .error (.badLoadPathElement P))
    ∧ (∀ (i : Nat) (s : String), (elems P)[i]? = some (.str s) →
        access (s ++ "/" ++ f) = true →
        (∀ k, k < i → ∃ t, (elems P)[k]? = some (.str t)) →
        ∃ (k : Nat) (t : String), k ≤ i ∧ (elems P)[k]? = some (.str t)
          ∧ access (t ++ "/" ++ f) = true
          ∧ (∀ (m : Nat) (u : String), m < k → (elems P)[m]? = some (.str u) →
              access (u ++ "/" ++ f) = false)
          ∧ Scm_FindFile access normalize f P
              = .ok (.str (t ++ "/" ++ f), tailAfter (k + 1) P)) := by
  constructor
  · intro j x hx hnot hbefore
    rw [findFile_search_eq access normalize f _ hne h1 h2 h3,
      findLoop_bad access f P j P .unbound x hx hnot hbefore]
  · intro i s hs hacc hstr
    -- the least index whose candidate exists
    have hex : ∃ k, ∃ t, k ≤ i ∧ (elems P)[k]? = some (.str t)
        ∧ access (t ++ "/" ++ f) = true := ⟨i, s, Nat.le_refl i, hs, hacc⟩
    classical
    let k := Nat.find hex
    obtain ⟨t, hki, ht, hacct⟩ := Nat.find_spec hex
    have hmin : ∀ (m : Nat) (u : String), m < k → (elems P)[m]? = some (.str u) →
        access (u ++ "/" ++ f) = false := by
      intro m u hm hu
      by_contra hcon
      have hau : access (u ++ "/" ++ f) = true := by simpa using hcon
      exact Nat.find_min hex hm ⟨u, Nat.le_trans (Nat.le_of_lt hm) hki, hu, hau⟩
    have hb : ∀ m, m < k →
        ∃ u, (elems P)[m]? = some (.str u) ∧ access (u ++ "/" ++ f) = false := by
      intro m hm
      obtain ⟨u, hu⟩ := hstr m (Nat.lt_of_lt_of_le hm hki)
      exact ⟨u, hu, hmin m u hm hu⟩
    refine ⟨k, t, hki, ht, hacct, hmin, ?_⟩
    rw [findFile_search_eq access normalize f _ hne h1 h2 h3,
      findLoop_hit access f P k P .unbound t ht hacct hb]
    simp [SCM_NULLP]

/-- Witness of C4 on scenario S5: the path is `/d1`, `42`, `/d2` and only
`/d2/util.scm` exists. -/
theorem findFile_eager_validation_witness :
    Scm_FindFile (fun p => p == "/d2/util.scm") id "util.scm"
        (.pair (.str "/d1") (.pair (.int 42) (.pair (.str "/d2") .nil)))
      = .error (.badLoadPathElement
          (.pair (.str "/d1") (.pair (.int 42) (.pair (.str "/d2") .nil)))) :=
  (findFile_eager_validation (fun p => p == "/d2/util.scm") id "util.scm"
      (.pair (.str "/d1") (.pair (.int 42) (.pair (.str "/d2") .nil)))
      (by decide) (by decide) (by decide) (by decide)).1 1 (.int 42) rfl rfl
    (by
      intro i s hi hs
      have hi0 : i = 0 := by omega
      subst hi0
      simp only [elems_pair, List.getElem?_cons_zero, Option.some.injEq,
        ScmObj.str.injEq] at hs
      subst hs
      decide)

/-! ## Registry -/

theorem addLoadPath_front (d : String) (st : VM)
    (h : st.globals.load_path = .nil ∨ SCM_PAIRP st.globals.load_path = true) :
    (Scm_AddLoadPath d 0 st).2.globals.load_path = .pair (.str d) st.globals.load_path := by
  rcases h with h | h
  · simp [Scm_AddLoadPath, h, SCM_PAIRP, SCM_LIST1, Scm_MakeString]
  · simp [Scm_AddLoadPath, h, Scm_Cons, Scm_MakeString]

theorem addLoadPath_returns_new (d : String) (a : Int) (st : VM) :
    (Scm_AddLoadPath d a st).1 = Scm_GetLoadPath (Scm_AddLoadPath d a st).2 := rfl

theorem addLoadPaths_value (ds : List String) :
    ∀ st : VM, (st.globals.load_path = .nil ∨ SCM_PAIRP st.globals.load_path = true) →
      (addLoadPaths ds st).globals.load_path
        = followedBy (ds.reverse.map ScmObj.str) st.globals.load_path := by
  induction ds with
  | nil => intro st _; rfl
  | cons d ds ih =>
    intro st h
    have h1 := addLoadPath_front d st h
    have h2 := ih (Scm_AddLoadPath d 0 st).2 (Or.inr (by rw [h1]; rfl))
    simp only [addLoadPaths, List.foldl_cons] at h2 ⊢
    rw [h2, h1]
    simp [followedBy, List.foldr_append]

theorem followedBy_list (xs : List ScmObj) (l : ScmObj)
    (h : l = .nil ∨ SCM_PAIRP l = true) :
    followedBy xs l = .nil ∨ SCM_PAIRP (followedBy xs l) = true := by
  cases xs with
  | nil => exact h
  | cons x xs => exact Or.inr rfl

/-- C5: starting from a list value bound to `*load-path*` (the empty list or a pair),
the calls `Scm_AddLoadPath (d_i, 0)` for `d_1, ..., d_n` in order leave
`Scm_GetLoadPath ()` returning `d_n, ..., d_1` followed by the initial value, and each
call returns the value `Scm_GetLoadPath ()` observes right after it, which is its
directory followed by the directories added before it, latest first, and the initial
value. -/
theorem addLoadPath_prepend_sequence (st : VM) (ds : List String)
    (hlist : Scm_GetLoadPath st = .nil ∨ SCM_PAIRP (Scm_GetLoadPath st) = true) :
    Scm_GetLoadPath (addLoadPaths ds st)
        = followedBy (ds.reverse.map ScmObj.str) (Scm_GetLoadPath st)
    ∧ ∀ (pre : List String) (d : String) (post : List String), ds = pre ++ d :: post →
        (Scm_AddLoadPath d 0 (addLoadPaths pre st)).1
            = Scm_GetLoadPath (Scm_AddLoadPath d 0 (addLoadPaths pre st)).2
        ∧ (Scm_AddLoadPath d 0 (addLoadPaths pre st)).1
            = followedBy ((d :: pre.reverse).map ScmObj.str) (Scm_GetLoadPath st) := by
  refine ⟨addLoadPaths_value ds st hlist, ?_⟩
  intro pre d post _
  refine ⟨rfl, ?_⟩
  have hpre := addLoadPaths_value pre st hlist
  have hl : (addLoadPaths pre st).globals.load_path = .nil
      ∨ SCM_PAIRP (addLoadPaths pre st).globals.load_path = true := by
    rw [hpre]
    exact followedBy_list _ _ hlist
  rw [addLoadPath_returns_new]
  show (Scm_AddLoadPath d 0 (addLoadPaths pre st)).2.globals.load_path = _
  rw [addLoadPath_front d _ hl, hpre]
  rfl

/-- Witness of C5: two directories added in front of the initial path of
`Scm__InitLoad`. -/
theorem addLoadPath_prepend_sequence_witness :
    Scm_GetLoadPath (addLoadPaths ["/a", "/b"] (Scm__InitLoad "/usr/share/lib" VM.boot))
      = strList ["/b", "/a", "/usr/share/lib"] :=
  (addLoadPath_prepend_sequence (Scm__InitLoad "/usr/share/lib" VM.boot) ["/a", "/b"]
    (Or.inr rfl)).1

/-! ## Loader loop -/

theorem SCM_EOFP_of_ne (e : ScmObj) (h : e ≠ .eof) : SCM_EOFP e = false := by
  cases e <;> simp_all [SCM_EOFP]

/-- At end of input `load_cc` reads the EOF object and closes the port. -/
theorem load_cc_eof (r : ScmObj) (p : Nat) (q : ScmPort) (st : VM)
    (hp : st.ports p = some q) (hd : q.data = []) :
    load_cc r [.port p] st =
      (r, { st with
            ports := fun i => if i = p then some { q with closed := true } else st.ports i
            trace := st.trace ++ [.read (.port p) .eof, .closed (.port p)] }) := by
  simp [load_cc, Scm_Read, Scm_ClosePort, hp, hd, SCM_EOFP]

/-- On a datum `load_cc` registers itself and requests the evaluation. -/
theorem load_cc_datum (r : ScmObj) (p : Nat) (q : ScmPort) (st : VM) (e : ScmObj)
    (es : List ScmObj) (hp : st.ports p = some q) (hd : q.data = e :: es) (he : e ≠ .eof) :
    load_cc r [.port p] st =
      (r, { st with
            ports := fun i => if i = p then some { q with data := es } else st.ports i
            cont := ⟨.load_cc, [.port p]⟩ :: st.cont
            pending := some e
            trace := st.trace
              ++ [.read (.port p) e, .pushcc ⟨.load_cc, [.port p]⟩, .eval e] }) := by
  simp [load_cc, Scm_Read, Scm_VMPushCC, Scm_VMEval, hp, hd, SCM_EOFP_of_ne e he]

/-- The loop from one invocation of `load_cc` to the end of the load: to the close at
end of input, or to the first evaluation that aborts. -/
theorem load_loop_run (ev : Evaluator) (p : Nat) :
    ∀ (es : List ScmObj) (st : VM) (q : ScmPort) (r : ScmObj) (fuel : Nat),
      st.ports p = some q → q.data = es → (∀ e ∈ es, e ≠ .eof) → es.length ≤ fuel →
      st.pending = none →
      ∃ st1, vmRun ev fuel (load_cc r [.port p] st).1 (load_cc r [.port p] st).2
            = some ((evalAll ev es r st.globals).1, st1)
        ∧ st1.globals = (evalAll ev es r st.globals).2
        ∧ st1.trace = st.trace ++ loadTrace ev (.port p) es st.globals
        ∧ st1.ports p = some { q with
            data := unreadAfter ev es st.globals
            closed := allDeliver ev es st.globals || q.closed }
        ∧ st1.pending = none := by
  intro es
  induction es with
  | nil =>
    intro st q r fuel hp hd _ _ hidle
    rw [load_cc_eof r p q st hp hd]
    refine ⟨{ st with
              ports := fun i => if i = p then some { q with closed := true } else st.ports i
              trace := st.trace ++ [.read (.port p) .eof, .closed (.port p)] },
      ?_, rfl, ?_, ?_, hidle⟩
    · cases fuel <;> simp [vmRun, hidle, evalAll]
    · simp [loadTrace]
    · simp [hd, unreadAfter, allDeliver]
  | cons e es ih =>
    intro st q r fuel hp hd hne hfuel hidle
    have he : e ≠ .eof := hne e (List.mem_cons_self _ _)
    have hes : ∀ x ∈ es, x ≠ .eof := fun x hx => hne x (List.mem_cons_of_mem _ hx)
    cases fuel with
    | zero => simp at hfuel
    | succ n =>
      have hn : es.length ≤ n := by simpa using hfuel
      rw [load_cc_datum r p q st e es hp hd he]
      cases hev : ev e st.globals with
      | abort g1 =>
        refine ⟨{ globals := g1
                  ports := fun i => if i = p then some { q with data := es } else st.ports i
                  nextPort := st.nextPort
                  cont := ⟨.load_cc, [.port p]⟩ :: st.cont
                  pending := none
                  trace := st.trace
                    ++ [.read (.port p) e, .pushcc ⟨.load_cc, [.port p]⟩, .eval e]
                    ++ [.aborted e st.globals g1] }, ?_, ?_, ?_, ?_, rfl⟩
        · simp only [vmRun, hev, evalAll]
        · simp only [evalAll, hev]
        · simp [loadTrace, hev]
        · simp [unreadAfter, allDeliver, hev]
      | value v g1 =>
        obtain ⟨st1, hrun, hg, htr, hport, hpend⟩ :=
          ih { globals := g1
               ports := fun i => if i = p then some { q with data := es } else st.ports i
               nextPort := st.nextPort
               cont := st.cont
               pending := none
               trace := st.trace
                 ++ [.read (.port p) e, .pushcc ⟨.load_cc, [.port p]⟩, .eval e]
                 ++ [.evaluated e st.globals v g1] }
             { q with data := es } v n (by simp) rfl hes hn rfl
        refine ⟨st1, ?_, ?_, ?_, ?_, hpend⟩
        · simp only [vmRun, hev, ContFrame.invoke, evalAll]
          exact hrun
        · simpa [evalAll, hev] using hg
        · rw [htr]
          simp [loadTrace, hev, List.append_assoc]
        · simpa [unreadAfter, allDeliver, hev] using hport

/-- When every evaluation delivers, the log of a load shows all the data submitted and
read in order and one close, at the very end, after the read of the EOF object. -/
theorem deliver_facts (ev : Evaluator) (p : ScmObj) :
    ∀ (es : List ScmObj) (r : ScmObj) (g : Globals), allDeliver ev es g = true →
      (∃ v, (evalAll ev es r g).1 = .ok v)
      ∧ submitted (loadTrace ev p es g) = es
      ∧ readings (loadTrace ev p es g) = es ++ [.eof]
      ∧ closings (loadTrace ev p es g) = [p]
      ∧ (∃ T, loadTrace ev p es g = T ++ [.read p .eof, .closed p] ∧ closings T = [])
      ∧ unreadAfter ev es g = [] := by
  intro es
  induction es with
  | nil =>
    intro r g _
    exact ⟨⟨r, rfl⟩, rfl, rfl, rfl, ⟨[], rfl, rfl⟩, rfl⟩
  | cons e es ih =>
    intro r g h
    cases hev : ev e g with
    | abort g1 => simp [allDeliver, hev] at h
    | value v g1 =>
      have h1 : allDeliver ev es g1 = true := by simpa [allDeliver, hev] using h
      obtain ⟨⟨w, hw⟩, hs, hr, hc, ⟨T, hT, hTc⟩, hu⟩ := ih v g1 h1
      refine ⟨⟨w, by simpa [evalAll, hev] using hw⟩, ?_, ?_, ?_, ?_, ?_⟩
      · simp [loadTrace, hev, submitted, hs]
      · simp [loadTrace, hev, readings, hr]
      · simp [loadTrace, hev, closings, hc]
      · refine ⟨[.read p e, .pushcc ⟨.load_cc, [p]⟩, .eval e, .evaluated e g v g1] ++ T,
          ?_, ?_⟩
        · simp [loadTrace, hev, hT]
        · simpa [closings] using hTc
      · simpa [unreadAfter, hev] using hu

/-- When the evaluation of `e` is the first that aborts, the log of a load shows the
data up to `e` submitted and read in order, and no close. -/
theorem abort_facts (ev : Evaluator) (p : ScmObj) (e : ScmObj) (post : List ScmObj)
    (g2 : Globals) :
    ∀ (pre : List ScmObj) (r : ScmObj) (g : Globals), allDeliver ev pre g = true →
      ev e (evalAll ev pre r g).2 = .abort g2 →
      evalAll ev (pre ++ e :: post) r g = (.error (.evalError e), g2)
      ∧ submitted (loadTrace ev p (pre ++ e :: post) g) = pre ++ [e]
      ∧ readings (loadTrace ev p (pre ++ e :: post) g) = pre ++ [e]
      ∧ closings (loadTrace ev p (pre ++ e :: post) g) = []
      ∧ unreadAfter ev (pre ++ e :: post) g = post
      ∧ allDeliver ev (pre ++ e :: post) g = false := by
  intro pre
  induction pre with
  | nil =>
    intro r g _ hab
    have hab2 : ev e g = .abort g2 := by simpa [evalAll] using hab
    simp [evalAll, loadTrace, submitted, readings, closings, unreadAfter, allDeliver, hab2]
  | cons x pre ih =>
    intro r g h hab
    cases hev : ev x g with
    | abort g1 => simp [allDeliver, hev] at h
    | value v g1 =>
      have h1 : allDeliver ev pre g1 = true := by simpa [allDeliver, hev] using h
      have hab1 : ev e (evalAll ev pre v g1).2 = .abort g2 := by
        simpa [evalAll, hev] using hab
      obtain ⟨a1, a2, a3, a4, a5, a6⟩ := ih v g1 h1 hab1
      refine ⟨?_, ?_, ?_, ?_, ?_, ?_⟩
      · simpa [evalAll, hev] using a1
      · simp [loadTrace, hev, submitted, a2]
      · simp [loadTrace, hev, readings, a3]
      · simp [loadTrace, hev, closings, a4]
      · simpa [unreadAfter, hev] using a5
      · simpa [allDeliver, hev] using a6

/-- C8 (counterexample): the port on `/tmp/b.scm` holds `1 boom 3` and the evaluation of
`boom` raises an error.  The load submits `1` and `boom` only, never reads `3`, and does
not close the port: it is left open with `3` unread. -/
theorem load_stops_at_abort :
    (runLoadFromPort quietEval 3 (.port 0)
        (Scm_OpenFilePort filesBoom "/tmp/b.scm" (vmWithPath ["/usr/share/lib"])).2).map
        (fun x => (x.1, submitted x.2.trace, closings x.2.trace, x.2.ports 0))
      = some (.error (.evalError (.sym "boom")), [.int 1, .sym "boom"], [],
          some ⟨"/tmp/b.scm", true, false, [.int 3]⟩) := by
  decide

/-- C8 (amended): the loader loop.  For an open input port whose remaining data are
`e_1, ..., e_n` (none of them the EOF object) and an idle VM, `Scm_VMLoadFromPort`
followed by the VM loop returns whenever the fuel covers the `n` evaluations, and its
log is exactly `loadTrace`: for each datum in order a read, the registration of
`load_cc`, the submission and the delivery of the value, each read following the
delivery of the previous value.  When every evaluation delivers its value, exactly
`e_1, ..., e_n` are submitted in order and the port is closed once, right after the EOF
object is read and not before.  When the evaluation of `e_k` is the first that aborts,
exactly `e_1, ..., e_k` have been read and submitted, the load ends with that error, and
the port is not closed: it stays open with the data after `e_k` unread. -/
theorem loadFromPort_order (ev : Evaluator) (st : VM) (p : Nat) (q : ScmPort) (fuel : Nat)
    (hp : st.ports p = some q) (hin : q.input = true) (hopen : q.closed = false)
    (hdata : ∀ e ∈ q.data, e ≠ .eof) (hidle : st.pending = none)
    (hfuel : q.data.length ≤ fuel) :
    ∃ (st1 : VM) (log : List Event),
      runLoadFromPort ev fuel (.port p) st
          = some ((evalAll ev q.data .nil st.globals).1, st1)
      ∧ st1.trace = st.trace ++ log
      ∧ log = loadTrace ev (.port p) q.data st.globals
      ∧ (allDeliver ev q.data st.globals = true →
          (∃ v, (evalAll ev q.data .nil st.globals).1 = .ok v)
          ∧ submitted log = q.data
          ∧ readings log = q.data ++ [.eof]
          ∧ closings log = [.port p]
          ∧ (∃ T, log = T ++ [.read (.port p) .eof, .closed (.port p)] ∧ closings T = [])
          ∧ st1.ports p = some { q with data := [], closed := true })
      ∧ (∀ (pre : List ScmObj) (e : ScmObj) (post : List ScmObj) (g2 : Globals),
          q.data = pre ++ e :: post → allDeliver ev pre st.globals = true →
          ev e (evalAll ev pre .nil st.globals).2 = .abort g2 →
          (evalAll ev q.data .nil st.globals).1 = .error (.evalError e)
          ∧ submitted log = pre ++ [e]
          ∧ readings log = pre ++ [e]
          ∧ closings log = []
          ∧ st1.ports p = some { q with data := post, closed := false }) := by
  obtain ⟨st1, hrun, _, htr, hport, _⟩ :=
    load_loop_run ev p q.data st q .nil fuel hp rfl hdata hfuel hidle
  refine ⟨st1, loadTrace ev (.port p) q.data st.globals, ?_, htr, rfl, ?_, ?_⟩
  · simp only [runLoadFromPort, Scm_VMLoadFromPort, SCM_IPORTP, SCM_PORT_CLOSED_P, hp, hin,
      hopen, Bool.not_true, Bool.false_eq_true, if_false]
    exact hrun
  · intro hall
    obtain ⟨hv, hs, hr, hc, hT, hu⟩ := deliver_facts ev (.port p) q.data .nil st.globals hall
    refine ⟨hv, hs, hr, hc, hT, ?_⟩
    rw [hport, hu, hall]
    rfl
  · intro pre e post g2 hsplit hpre hab
    obtain ⟨a1, a2, a3, a4, a5, a6⟩ :=
      abort_facts ev (.port p) e post g2 pre .nil st.globals hpre hab
    rw [hsplit]
    refine ⟨by rw [a1], a2, a3, a4, ?_⟩
    rw [hport, hsplit, a5, a6, hopen]
    rfl

/-- Witness of C8 (amended): the port opened on `/tmp/a.scm` of scenario S1, where both
evaluations deliver. -/
theorem loadFromPort_order_witness :
    ∃ (st1 : VM) (log : List Event),
      runLoadFromPort quietEval 2 (.port 0)
          (Scm_OpenFilePort filesS1 "/tmp/a.scm" (vmWithPath ["/usr/share/lib"])).2
        = some (.ok (.int 2), st1)
      ∧ st1.trace = [.opened "/tmp/a.scm" (.port 0)] ++ log
      ∧ submitted log = [exprDefine, exprSet]
      ∧ closings log = [.port 0] := by
  obtain ⟨st1, log, h1, h2, _, hdel, _⟩ :=
    loadFromPort_order quietEval
      (Scm_OpenFilePort filesS1 "/tmp/a.scm" (vmWithPath ["/usr/share/lib"])).2 0
      ⟨"/tmp/a.scm", true, false, [exprDefine, exprSet]⟩ 2 (by decide) rfl rfl (by decide)
      rfl (by decide)
  obtain ⟨_, hs, _, hc, _, _⟩ := hdel (by decide)
  exact ⟨st1, log, h1, h2, hs, hc⟩

/-! ## Loader: resolution of the name -/

theorem openFilePort_fail (fs : Files) (c : String) (st : VM) (h : fs c = none) :
    Scm_OpenFilePort fs c st
      = (.false_, { st with trace := st.trace ++ [.opened c .false_] }) := by
  simp [Scm_OpenFilePort, h]

theorem openFilePort_ok (fs : Files) (c : String) (st : VM) (d : List ScmObj)
    (h : fs c = some d) :
    Scm_OpenFilePort fs c st
      = (.port st.nextPort,
          { st with
            ports := fun i => if i = st.nextPort then some ⟨c, true, false, d⟩ else st.ports i
            nextPort := st.nextPort + 1
            trace := st.trace ++ [.opened c (.port st.nextPort)] }) := by
  simp [Scm_OpenFilePort, h]

theorem byteAt_ne_slash (f : String) (h : ¬ beginsWith "/" f) : byteAt f 0 ≠ '/' := by
  intro hb
  have hlen : f.length ≠ 0 := by
    rcases f with ⟨cs⟩
    cases cs with
    | nil => exact absurd hb (by decide)
    | cons c cs => simp [String.length]
  exact h ((beginsWith_slash_iff f).2 ⟨hlen, hb⟩)

theorem loadLoop_step_miss (fs : Files) (f : String) (L : ScmObj) (x : String)
    (d p0 : ScmObj) (st : VM) (hx : fs (x ++ "/" ++ f) = none) :
    loadLoop fs f L (.pair (.str x) d) p0 st
      = loadLoop fs f L d .false_
          { st with trace := st.trace ++ [.opened (x ++ "/" ++ f) .false_] } := by
  simp [loadLoop, openFilePort_fail fs _ st hx, SCM_FALSEP]

/-- The search loop of `Scm_VMLoad` on a proper list of strings under none of which the
file opens: every candidate is tried and `p` is still `SCM_FALSE`. -/
theorem loadLoop_miss (fs : Files) (f : String) (L : ScmObj) :
    ∀ (ds : List String) (st : VM), (∀ d ∈ ds, fs (d ++ "/" ++ f) = none) →
      loadLoop fs f L (strList ds) .false_ st
        = (.ok .false_, { st with trace := st.trace ++ failedOpens f ds }) := by
  intro ds
  induction ds with
  | nil =>
    intro st _
    simp [strList_nil, loadLoop, failedOpens]
  | cons d ds ih =>
    intro st h
    have hd : fs (d ++ "/" ++ f) = none := h d (List.mem_cons_self _ _)
    rw [strList_cons, loadLoop_step_miss fs f L d _ _ st hd,
      ih _ (fun e he => h e (List.mem_cons_of_mem _ he))]
    simp [failedOpens]

/-- When the name opens neither as given nor under any element of the search path,
`Scm_VMLoad` raises `NotFoundInPath` and has only logged the failed opens. -/
theorem vmLoad_search_miss (fs : Files) (f : String) (st : VM) (ds : List String)
    (hrel : ¬ beginsWith "/" f) (hdirect : fs f = none)
    (hlp : Scm_GetLoadPath st = strList ds)
    (hnone : ∀ d ∈ ds, fs (d ++ "/" ++ f) = none) :
    Scm_VMLoad fs f st
      = (.error (.notFoundInPath f (strList ds)),
          { st with trace := st.trace ++ .opened f .false_ :: failedOpens f ds }) := by
  have hb := byteAt_ne_slash f hrel
  have hlp2 : st.globals.load_path = strList ds := hlp
  simp [Scm_VMLoad, openFilePort_fail fs f st hdirect, SCM_FALSEP, hb, Scm_GetLoadPath, hlp2,
    loadLoop_miss fs f _ ds _ hnone]

theorem readings_failedOpens (f : String) (ds : List String) :
    readings (failedOpens f ds) = [] := by
  induction ds with
  | nil => rfl
  | cons d ds ih => simpa [failedOpens, readings] using ih

theorem submitted_failedOpens (f : String) (ds : List String) :
    submitted (failedOpens f ds) = [] := by
  induction ds with
  | nil => rfl
  | cons d ds ih => simpa [failedOpens, submitted] using ih

theorem closings_failedOpens (f : String) (ds : List String) :
    closings (failedOpens f ds) = [] := by
  induction ds with
  | nil => rfl
  | cons d ds ih => simpa [failedOpens, closings] using ih

/-! ## Loader: the claims on resolution -/

/-- C7 (counterexample): with `*load-path*` = `/d1` and nothing under `/d1`, so that
`Scm_FindFile` reports not-found, `Scm_VMLoad` of `util.scm` still succeeds when the
name opens as given: it reads and evaluates that file and raises no error. -/
theorem load_found_outside_path :
    filesOnlyCwd "/d1/util.scm" = none
    ∧ Scm_FindFile (fun p => (filesOnlyCwd p).isSome) id "util.scm"
        (Scm_GetLoadPath (vmWithPath ["/d1"])) = .ok (.false_, .nil)
    ∧ (runLoad quietEval filesOnlyCwd 1 "util.scm" (vmWithPath ["/d1"])).map
        (fun x => (x.1, readings x.2.trace, submitted x.2.trace))
      = some (.ok (.int 1), [.int 1, .eof], [.int 1]) := by
  decide

/-- C7 (amended): for a filename that does not begin with `/` and a `*load-path*` that
is a proper list of strings, when the name opens neither as given nor under any element
of the path, the load fails with `NotFoundInPath` carrying the filename and the whole
path value; the state differs from the initial one only by the log of the failed opens,
so nothing was read or submitted, no port exists that did not before, and nothing is
pending. -/
theorem load_not_found (ev : Evaluator) (fs : Files) (f : String) (ds : List String)
    (st : VM) (fuel : Nat)
    (hrel : ¬ beginsWith "/" f) (hlp : Scm_GetLoadPath st = strList ds)
    (hdirect : fs f = none) (hnone : ∀ d ∈ ds, fs (d ++ "/" ++ f) = none) :
    ∃ log, runLoad ev fs fuel f st
          = some (.error (.notFoundInPath f (strList ds)),
              { st with trace := st.trace ++ log })
      ∧ log = .opened f .false_ :: failedOpens f ds
      ∧ readings log = [] ∧ submitted log = [] ∧ closings log = [] := by
  refine ⟨.opened f .false_ :: failedOpens f ds, ?_, rfl, ?_, ?_, ?_⟩
  · simp [runLoad, vmLoad_search_miss fs f st ds hrel hdirect hlp hnone]
  · simpa [readings] using readings_failedOpens f ds
  · simpa [submitted] using submitted_failedOpens f ds
  · simpa [closings] using closings_failedOpens f ds

/-- Witness of C7 (amended) on scenario S4: `*load-path*` = `/d1` and no `util.scm`
anywhere. -/
theorem load_not_found_witness :
    ∃ log, runLoad quietEval filesS1 0 "util.scm" (vmWithPath ["/d1"])
          = some (.error (.notFoundInPath "util.scm" (strList ["/d1"])),
              { vmWithPath ["/d1"] with trace := (vmWithPath ["/d1"]).trace ++ log })
      ∧ log = [.opened "util.scm" .false_, .opened "/d1/util.scm" .false_] := by
  obtain ⟨log, h1, h2, _⟩ :=
    load_not_found quietEval filesS1 "util.scm" ["/d1"] (vmWithPath ["/d1"]) 0
      (by decide) rfl (by decide) (by decide)
  exact ⟨log, h1, h2⟩

/-! ## Loader: try-load -/

/-- On a path that does not open `Scm_VMTryLoad` returns the zero word, raises nothing
and only logs the failed open. -/
theorem vmTryLoad_unopenable (fs : Files) (cpath : String) (st : VM)
    (h : fs cpath = none) :
    Scm_VMTryLoad fs cpath st
      = (.ok .zeroWord, { st with trace := st.trace ++ [.opened cpath .false_] }) := by
  simp [Scm_VMTryLoad, openFilePort_fail fs cpath st h, SCM_FALSEP]

/-- On a path that opens `Scm_VMTryLoad` is `Scm_VMLoadFromPort` on the opened port. -/
theorem vmTryLoad_openable (fs : Files) (cpath : String) (st : VM) (d : List ScmObj)
    (h : fs cpath = some d) :
    Scm_VMTryLoad fs cpath st
      = Scm_VMLoadFromPort (.port st.nextPort) (Scm_OpenFilePort fs cpath st).2 := by
  simp [Scm_VMTryLoad, openFilePort_ok fs cpath st d h, SCM_FALSEP]

/-- C10 (divergence): for a path that cannot be opened `Scm_VMTryLoad` returns the C
constant `FALSE`, the zero word, which is not the Scheme false object that
`Scm_FindFile` and `Scm_DynLink` return on failure.  No error is raised and the log
holds the failed open only. -/
theorem tryLoad_returns_zero_word :
    (Scm_VMTryLoad filesS1 "/tmp/missing.scm" (vmWithPath ["/usr/share/lib"])).1
      = .ok .zeroWord
    ∧ ScmObj.zeroWord ≠ ScmObj.false_
    ∧ (Scm_VMTryLoad filesS1 "/tmp/missing.scm" (vmWithPath ["/usr/share/lib"])).2.trace
      = [.opened "/tmp/missing.scm" .false_]
    ∧ Scm_FindFile (fun p => (filesS1 p).isSome) id "/tmp/missing.scm"
        (Scm_GetLoadPath (vmWithPath ["/usr/share/lib"])) = .ok (.false_, .nil)
    ∧ (Scm_DynLink (fun _ => none) (fun _ => none) "/tmp/missing.so"
        (vmWithPath ["/usr/share/lib"])).1 = .false_ := by
  decide

/-! ## Loader: the Scheme variables of a load -/

theorem seenFilenames_append (a b : List Event) :
    seenFilenames (a ++ b) = seenFilenames a ++ seenFilenames b := by
  induction a with
  | nil => rfl
  | cons x a ih => cases x <;> simp [seenFilenames, ih]

theorem quietStep_refl (st : VM) : quietStep st st :=
  ⟨rfl, [], by simp, rfl⟩

theorem quietStep_trans {a b c : VM} (h1 : quietStep a b) (h2 : quietStep b c) :
    quietStep a c := by
  obtain ⟨g1, l1, t1, s1⟩ := h1
  obtain ⟨g2, l2, t2, s2⟩ := h2
  refine ⟨g2.trans g1, l1 ++ l2, ?_, ?_⟩
  · rw [t2, t1, List.append_assoc]
  · rw [seenFilenames_append, s1, s2]
    rfl

theorem openFilePort_quiet (fs : Files) (c : String) (st : VM) :
    quietStep st (Scm_OpenFilePort fs c st).2 := by
  unfold Scm_OpenFilePort
  cases fs c with
  | none => exact ⟨rfl, [_], rfl, rfl⟩
  | some d => exact ⟨rfl, [_], rfl, rfl⟩

theorem read_quiet (port : ScmObj) (st : VM) : quietStep st (Scm_Read port st).2 := by
  unfold Scm_Read
  split
  · split
    · split
      · exact ⟨rfl, [_], rfl, rfl⟩
      · exact ⟨rfl, [_], rfl, rfl⟩
    · exact ⟨rfl, [_], rfl, rfl⟩
  · exact ⟨rfl, [_], rfl, rfl⟩

theorem closePort_quiet (port : ScmObj) (st : VM) : quietStep st (Scm_ClosePort port st) := by
  unfold Scm_ClosePort
  split
  · split
    · exact ⟨rfl, [_], rfl, rfl⟩
    · exact ⟨rfl, [_], rfl, rfl⟩
  · exact ⟨rfl, [_], rfl, rfl⟩

theorem pushCC_quiet (c : CCont) (data : List ScmObj) (st : VM) :
    quietStep st (Scm_VMPushCC c data st) :=
  ⟨rfl, [_], rfl, rfl⟩

theorem vmEval_quiet (e : ScmObj) (st : VM) : quietStep st (Scm_VMEval e st) :=
  ⟨rfl, [_], rfl, rfl⟩

theorem load_cc_quiet (r : ScmObj) (data : List ScmObj) (st : VM) :
    quietStep st (load_cc r data st).2 := by
  unfold load_cc
  simp only
  split
  · exact quietStep_trans (read_quiet _ st)
      (quietStep_trans (pushCC_quiet _ _ _) (vmEval_quiet _ _))
  · exact quietStep_trans (read_quiet _ st) (closePort_quiet _ _)

theorem vmLoadFromPort_quiet (port : ScmObj) (st : VM) :
    quietStep st (Scm_VMLoadFromPort port st).2 := by
  unfold Scm_VMLoadFromPort
  split
  · exact quietStep_refl st
  · split
    · exact quietStep_refl st
    · exact load_cc_quiet _ _ st

theorem loadLoop_quiet (fs : Files) (f : String) (L : ScmObj) :
    ∀ (lp p : ScmObj) (st : VM), quietStep st (loadLoop fs f L lp p st).2 := by
  intro lp
  induction lp with
  | pair a d _ ihd =>
    intro p st
    cases a with
    | str x =>
      simp only [loadLoop]
      split
      · exact openFilePort_quiet fs _ st
      · exact quietStep_trans (openFilePort_quiet fs _ st) (ihd _ _)
    | _ => exact quietStep_refl st
  | _ => intro p st; exact quietStep_refl st

theorem vmLoad_quiet (fs : Files) (c : String) (st : VM) :
    quietStep st (Scm_VMLoad fs c st).2 := by
  unfold Scm_VMLoad
  simp only
  split
  · split
    · exact openFilePort_quiet fs c st
    · have hl := loadLoop_quiet fs c (Scm_GetLoadPath (Scm_OpenFilePort fs c st).2)
        (Scm_GetLoadPath (Scm_OpenFilePort fs c st).2) (Scm_OpenFilePort fs c st).1
        (Scm_OpenFilePort fs c st).2
      split
      · rename_i e st2 heq
        rw [heq] at hl
        exact quietStep_trans (openFilePort_quiet fs c st) hl
      · rename_i p st2 heq
        rw [heq] at hl
        split
        · exact quietStep_trans (openFilePort_quiet fs c st) hl
        · exact quietStep_trans (openFilePort_quiet fs c st)
            (quietStep_trans hl (vmLoadFromPort_quiet _ _))
  · exact quietStep_trans (openFilePort_quiet fs c st) (vmLoadFromPort_quiet _ _)

theorem keepsVars_append (a b : List Event) :
    keepsVars (a ++ b) = (keepsVars a && keepsVars b) := by
  induction a with
  | nil => simp [keepsVars]
  | cons x a ih => cases x <;> simp [keepsVars, ih, Bool.and_assoc]

theorem keepsVars_of_unseen (l : List Event) (h : seenFilenames l = []) :
    keepsVars l = true := by
  induction l with
  | nil => rfl
  | cons x l ih => cases x <;> simp_all [seenFilenames, keepsVars]

/-- The VM loop only appends to the log; when no evaluation it logs changed
`*load-filename*` or `*load-history*`, both variables end as they began and every
evaluation saw the initial `*load-filename*`. -/
theorem vmRun_keeps (ev : Evaluator) :
    ∀ (fuel : Nat) (r : ScmObj) (st : VM) (res : Except ScmError ScmObj) (st1 : VM),
      vmRun ev fuel r st = some (res, st1) →
      ∃ log, st1.trace = st.trace ++ log
        ∧ (keepsVars log = true →
            st1.globals.load_filename = st.globals.load_filename
            ∧ st1.globals.load_history = st.globals.load_history
            ∧ ∀ x ∈ seenFilenames log, x = st.globals.load_filename) := by
  intro fuel
  induction fuel with
  | zero =>
    intro r st res st1 h
    simp only [vmRun] at h
    split at h
    · simp only [Option.some.injEq, Prod.mk.injEq] at h
      obtain ⟨_, rfl⟩ := h
      exact ⟨[], by simp, fun _ => ⟨rfl, rfl, by simp [seenFilenames]⟩⟩
    · cases h
  | succ n ih =>
    intro r st res st1 h
    simp only [vmRun] at h
    split at h
    · simp only [Option.some.injEq, Prod.mk.injEq] at h
      obtain ⟨_, rfl⟩ := h
      exact ⟨[], by simp, fun _ => ⟨rfl, rfl, by simp [seenFilenames]⟩⟩
    · rename_i expr hpend
      split at h
      · rename_i g1 hev
        simp only [Option.some.injEq, Prod.mk.injEq] at h
        obtain ⟨_, rfl⟩ := h
        refine ⟨[.aborted expr st.globals g1], rfl, ?_⟩
        intro hk
        simp only [keepsVars, Bool.and_true, Bool.and_eq_true, beq_iff_eq] at hk
        exact ⟨hk.1, hk.2, by simp [seenFilenames]⟩
      · rename_i v g1 hev
        split at h
        · simp only [Option.some.injEq, Prod.mk.injEq] at h
          obtain ⟨_, rfl⟩ := h
          refine ⟨[.evaluated expr st.globals v g1], rfl, ?_⟩
          intro hk
          simp only [keepsVars, Bool.and_true, Bool.and_eq_true, beq_iff_eq] at hk
          exact ⟨hk.1, hk.2, by simp [seenFilenames]⟩
        · rename_i fr k hcont
          have hq := load_cc_quiet v fr.data
            { globals := g1
              ports := st.ports
              nextPort := st.nextPort
              cont := k
              pending := none
              trace := st.trace ++ [.evaluated expr st.globals v g1] }
          have hinv : ContFrame.invoke fr v
              { globals := g1
                ports := st.ports
                nextPort := st.nextPort
                cont := k
                pending := none
                trace := st.trace ++ [.evaluated expr st.globals v g1] }
              = load_cc v fr.data
              { globals := g1
                ports := st.ports
                nextPort := st.nextPort
                cont := k
                pending := none
                trace := st.trace ++ [.evaluated expr st.globals v g1] } := by
            unfold ContFrame.invoke
            cases fr.func
            rfl
          rw [hinv] at h
          obtain ⟨log, htr, hkeep⟩ := ih _ _ _ _ h
          obtain ⟨hg, l0, ht0, hs0⟩ := hq
          simp only at hg ht0
          refine ⟨[.evaluated expr st.globals v g1] ++ l0 ++ log, ?_, ?_⟩
          · rw [htr, ht0]
            simp [List.append_assoc]
          · intro hk
            rw [keepsVars_append, keepsVars_append, keepsVars_of_unseen l0 hs0] at hk
            simp only [keepsVars, Bool.and_true, Bool.and_eq_true, beq_iff_eq] at hk
            obtain ⟨⟨hf1, hh1⟩, hklog⟩ := hk
            obtain ⟨hf, hh, hseen⟩ := hkeep hklog
            rw [hg] at hf hh hseen
            refine ⟨hf.trans hf1, hh.trans hh1, ?_⟩
            intro x hx
            have hsf : seenFilenames ([.evaluated expr st.globals v g1] ++ l0 ++ log)
                = st.globals.load_filename :: seenFilenames log := by
              rw [seenFilenames_append, seenFilenames_append, hs0]
              rfl
            rw [hsf] at hx
            rcases List.mem_cons.1 hx with rfl | hx
            · rfl
            · rw [hseen x hx]
              exact hf1

/-- The log of a load whose evaluations leave the two variables alone shows it. -/
theorem keepsVars_loadTrace (ev : Evaluator) (p : ScmObj) :
    ∀ (es : List ScmObj) (g : Globals), quietOn ev es g = true →
      keepsVars (loadTrace ev p es g) = true := by
  intro es
  induction es with
  | nil => intro g _; rfl
  | cons e es ih =>
    intro g h
    cases hev : ev e g with
    | abort g1 =>
      simp only [quietOn, hev] at h
      simp [loadTrace, hev, keepsVars, h]
    | value v g1 =>
      simp only [quietOn, hev, Bool.and_eq_true] at h
      simp [loadTrace, hev, keepsVars, h.1, ih g1 h.2]

/-- A file that opens under its own name is loaded to the end of its data, or to the
first evaluation that aborts, when the fuel covers its data. -/
theorem runLoad_direct (ev : Evaluator) (fs : Files) (F : String) (data : List ScmObj)
    (st : VM) (fuel : Nat) (hF : fs F = some data) (hdata : ∀ e ∈ data, e ≠ .eof)
    (hidle : st.pending = none) (hfuel : data.length ≤ fuel) :
    ∃ st1, runLoad ev fs fuel F st = some ((evalAll ev data .nil st.globals).1, st1)
      ∧ st1.trace = st.trace
          ++ .opened F (.port st.nextPort) :: loadTrace ev (.port st.nextPort) data st.globals := by
  obtain ⟨st1, hrun, _, htr, _⟩ :=
    load_loop_run ev st.nextPort data
      { st with
        ports := fun i => if i = st.nextPort then some ⟨F, true, false, data⟩ else st.ports i
        nextPort := st.nextPort + 1
        trace := st.trace ++ [.opened F (.port st.nextPort)] }
      ⟨F, true, false, data⟩ .nil fuel (by simp) rfl hdata hfuel hidle
  refine ⟨st1, ?_, ?_⟩
  · simp only [runLoad, Scm_VMLoad, openFilePort_ok fs F st data hF, SCM_FALSEP,
      Bool.false_eq_true, if_false, Scm_VMLoadFromPort, SCM_IPORTP, SCM_PORT_CLOSED_P, if_true,
      Bool.not_true]
    simp only at hrun
    exact hrun
  · rw [htr]
    simp [List.append_assoc]

/-- A completed load only appends to the log; when no evaluation of the load changed
`*load-filename*` or `*load-history*`, both end as they began and every evaluation saw
the initial `*load-filename*`. -/
theorem runLoad_keeps (ev : Evaluator) (fs : Files) (cpath : String) (st : VM) (fuel : Nat)
    (res : Except ScmError ScmObj) (st1 : VM)
    (h : runLoad ev fs fuel cpath st = some (res, st1))
    (hk : keepsVars (st1.trace.drop st.trace.length) = true) :
    st1.globals.load_filename = st.globals.load_filename
    ∧ st1.globals.load_history = st.globals.load_history
    ∧ ∀ x ∈ seenFilenames (st1.trace.drop st.trace.length),
        x = st.globals.load_filename := by
  have hq := vmLoad_quiet fs cpath st
  unfold runLoad at h
  split at h
  · rename_i e st0 heq
    rw [heq] at hq
    simp only [Option.some.injEq, Prod.mk.injEq] at h
    obtain ⟨_, rfl⟩ := h
    obtain ⟨hg, l0, ht0, hs0⟩ := hq
    simp only at hg ht0
    refine ⟨by rw [hg], by rw [hg], ?_⟩
    intro x hx
    rw [ht0, List.drop_left, hs0] at hx
    cases hx
  · rename_i r0 st0 heq
    rw [heq] at hq
    obtain ⟨log, htr, hkeep⟩ := vmRun_keeps ev fuel r0 st0 res st1 h
    obtain ⟨hg, l0, ht0, hs0⟩ := hq
    simp only at hg ht0
    have hdrop : st1.trace.drop st.trace.length = l0 ++ log := by
      rw [htr, ht0, List.append_assoc, List.drop_left]
    rw [hdrop] at hk ⊢
    rw [keepsVars_append, keepsVars_of_unseen l0 hs0] at hk
    obtain ⟨hf, hh, hseen⟩ := hkeep (by simpa using hk)
    rw [hg] at hf hh hseen
    refine ⟨hf, hh, ?_⟩
    intro x hx
    rw [seenFilenames_append, hs0] at hx
    exact hseen x (by simpa using hx)

/-- C9 (counterexample): the load of `/tmp/a.scm` of scenario S1 succeeds with the value
`2`, yet both evaluations saw `*load-filename*` unbound rather than `/tmp/a.scm`, and
afterwards `*load-history*` is still the empty list: the file is not at its head. -/
theorem load_records_nothing :
    (runLoad quietEval filesS1 2 "/tmp/a.scm" (vmWithPath ["/usr/share/lib"])).map
        (fun x => (x.1, seenFilenames x.2.trace, x.2.globals.load_filename,
          x.2.globals.load_history))
      = some (.ok (.int 2), [.unbound, .unbound], .unbound, .nil) := by
  decide

/-- C9 (amended): the loader neither sets `*load-filename*` nor records the file in
`*load-history*`.  For every successful load, however the name was resolved, in which
no evaluation of the file's expressions itself changed the two variables:
`*load-filename*` and `*load-history*` end at their values from before the load, and
each evaluation of the load saw `*load-filename*` at that same value.  Such loads exist:
a file that opens under its own name, whose evaluations all deliver and change neither
variable, is loaded successfully with an idle VM and fuel for its data. -/
theorem load_keeps_filename_and_history (ev : Evaluator) (fs : Files) :
    (∀ (cpath : String) (st : VM) (fuel : Nat) (r : ScmObj) (st1 : VM),
        runLoad ev fs fuel cpath st = some (.ok r, st1) →
        keepsVars (st1.trace.drop st.trace.length) = true →
        st1.globals.load_filename = st.globals.load_filename
        ∧ st1.globals.load_history = st.globals.load_history
        ∧ ∀ x ∈ seenFilenames (st1.trace.drop st.trace.length),
            x = st.globals.load_filename)
    ∧ (∀ (F : String) (data : List ScmObj) (st : VM) (fuel : Nat),
        fs F = some data → (∀ e ∈ data, e ≠ .eof) → st.pending = none →
        data.length ≤ fuel → allDeliver ev data st.globals = true →
        quietOn ev data st.globals = true →
        ∃ (v : ScmObj) (st1 : VM),
          (evalAll ev data .nil st.globals).1 = .ok v
          ∧ runLoad ev fs fuel F st = some (.ok v, st1)
          ∧ keepsVars (st1.trace.drop st.trace.length) = true
          ∧ st1.globals.load_filename = st.globals.load_filename
          ∧ st1.globals.load_history = st.globals.load_history
          ∧ ∀ x ∈ seenFilenames (st1.trace.drop st.trace.length),
              x = st.globals.load_filename) := by
  constructor
  · intro cpath st fuel r st1 h hk
    exact runLoad_keeps ev fs cpath st fuel (.ok r) st1 h hk
  · intro F data st fuel hF hdata hidle hfuel hall hquiet
    obtain ⟨st1, hrun, htr⟩ := runLoad_direct ev fs F data st fuel hF hdata hidle hfuel
    obtain ⟨⟨v, hv⟩, _⟩ := deliver_facts ev (.port st.nextPort) data .nil st.globals hall
    have hk : keepsVars (st1.trace.drop st.trace.length) = true := by
      rw [htr, List.drop_left]
      simpa [keepsVars] using keepsVars_loadTrace ev (.port st.nextPort) data st.globals hquiet
    rw [hv] at hrun
    obtain ⟨hf, hh, hseen⟩ := runLoad_keeps ev fs F st fuel (.ok v) st1 hrun hk
    exact ⟨v, st1, hv, hrun, hk, hf, hh, hseen⟩

/-- Witness of C9 (amended) on scenario S1, with an evaluator that can assign
`*load-history*` but does not on the expressions of `/tmp/a.scm`. -/
theorem load_keeps_filename_and_history_witness :
    ∃ st1, runLoad almostQuietEval filesS1 2 "/tmp/a.scm" (vmWithPath ["/usr/share/lib"])
          = some (.ok (.int 2), st1)
      ∧ st1.globals.load_filename = .unbound
      ∧ st1.globals.load_history = .nil := by
  obtain ⟨v, st1, hv, hrun, _, hf, hh, _⟩ :=
    (load_keeps_filename_and_history almostQuietEval filesS1).2 "/tmp/a.scm"
      [exprDefine, exprSet] (vmWithPath ["/usr/share/lib"]) 2 (by decide) (by decide) rfl
      (by decide) (by decide) (by decide)
  have hv2 : v = .int 2 := by
    have : (Except.ok (ScmObj.int 2) : Except ScmError ScmObj) = .ok v := hv
    injection this with h
    exact h.symm
  subst hv2
  exact ⟨st1, hrun, hf, hh⟩

end Gauche
